import Mathlib

/-!
# Verification of the psi4numpy CPHF / hyperpolarizability module

Shallow embedding of `Self-Consistent-Field/helper_CPHF.py` and
`Self-Consistent-Field/beta.py` over exact rationals (`ℚ` stands in for
IEEE doubles; all algebraic identities are exact).  External services
(the psi4 JK builder and the DIIS helper, which live outside this
repository) are modelled as oracle function fields of the solver state.
`np.linalg.inv` is modelled by the computable adjugate inverse `qinv`.
-/

open scoped Matrix

namespace Psi4CPHF

/-- Occupied index embedded into the full orbital range `Fin (nocc + nvir)`
(python slice `[:nocc]`). -/
def oix {nocc nvir : ℕ} (i : Fin nocc) : Fin (nocc + nvir) := Fin.castAdd nvir i

/-- Virtual index embedded into the full orbital range `Fin (nocc + nvir)`
(python slice `[nocc:]`). -/
def vix {nocc nvir : ℕ} (a : Fin nvir) : Fin (nocc + nvir) := Fin.natAdd nocc a

/-- The computable inverse used to model `np.linalg.inv`:
`A⁻¹ = det(A)⁻¹ • adjugate(A)` (exact over `ℚ`; returns the zero matrix on a
singular input, where numpy would raise `LinAlgError`). -/
def qinv {n : ℕ} (A : Matrix (Fin n) (Fin n) ℚ) : Matrix (Fin n) (Fin n) ℚ :=
  (A.det)⁻¹ • A.adjugate

theorem qinv_mul {n : ℕ} (A : Matrix (Fin n) (Fin n) ℚ) (h : A.det ≠ 0) :
    qinv A * A = 1 := by
  rw [qinv, Matrix.smul_mul, Matrix.adjugate_mul, smul_smul,
    inv_mul_cancel₀ h, one_smul]

theorem mul_qinv {n : ℕ} (A : Matrix (Fin n) (Fin n) ℚ) (h : A.det ≠ 0) :
    A * qinv A = 1 := by
  rw [qinv, Matrix.mul_smul, Matrix.mul_adjugate, smul_smul,
    inv_mul_cancel₀ h, one_smul]

theorem qinv_symm {n : ℕ} (A : Matrix (Fin n) (Fin n) ℚ) (h : Aᵀ = A) :
    (qinv A)ᵀ = qinv A := by
  rw [qinv, Matrix.transpose_smul, Matrix.adjugate_transpose, h]

/-- The MO-basis electron-repulsion tensor `MO = mints.mo_eri(Co, C, C, C)`
(`helper_CPHF.py` line 82): first index occupied, remaining three over the
full orbital range.  Supplied by the external integral engine, so modelled
as an input. -/
def ERI (nocc nvir : ℕ) :=
  Fin nocc → Fin (nocc + nvir) → Fin (nocc + nvir) → Fin (nocc + nvir) → ℚ

/-- The 4-index electronic Hessian type `(occ, vir, occ, vir)`. -/
def T4 (nocc nvir : ℕ) := Fin nocc → Fin nvir → Fin nocc → Fin nvir → ℚ

/-- Type of the three response / perturbation occupied×virtual matrices. -/
def V3 (nocc nvir : ℕ) := Fin 3 → Matrix (Fin nocc) (Fin nvir) ℚ

/-- The exceptions `helper_CPHF.py` can raise, with the data interpolated
into their messages (lines 54 and 71-72). -/
inductive CPHFError where
  | methodNotRecognized (method : String)
  | memoryExceeded (footprint limit : ℚ)
  deriving DecidableEq

/-- State of a `helper_CPHF` object.  Orbital data, the MO-basis dipole
perturbations `dipoles_xyz` (already scaled by −2 in `__init__`), and the
MO ERI tensor are inputs from the external mean-field/integral services;
`jkJ`/`jkK` model the psi4 JK builder (J and K matrices as a function of
the three registered `C_right` matrices) and `diisExtrap` the external
`DIIS_helper.extrapolate` (as a function of iteration number, component,
new guess and residual).  `x` and `polar` start out unset (`None`). -/
structure HState (nocc nvir : ℕ) where
  epsilon : Fin (nocc + nvir) → ℚ
  dipoles_xyz : V3 nocc nvir
  moeri : ERI nocc nvir
  Co : Matrix (Fin (nocc + nvir)) (Fin nocc) ℚ
  Cv : Matrix (Fin (nocc + nvir)) (Fin nvir) ℚ
  jkJ : (Fin 3 → Matrix (Fin (nocc + nvir)) (Fin nocc) ℚ) → Fin 3 →
      Matrix (Fin (nocc + nvir)) (Fin (nocc + nvir)) ℚ
  jkK : (Fin 3 → Matrix (Fin (nocc + nvir)) (Fin nocc) ℚ) → Fin 3 →
      Matrix (Fin (nocc + nvir)) (Fin (nocc + nvir)) ℚ
  diisExtrap : ℕ → Fin 3 → Matrix (Fin nocc) (Fin nvir) ℚ →
      Matrix (Fin nocc) (Fin nvir) ℚ → Matrix (Fin nocc) (Fin nvir) ℚ
  method : String
  numpy_memory : ℚ
  x : Option (V3 nocc nvir)
  polar : Option (Matrix (Fin 3) (Fin 3) ℚ)

/-- `I_Size = (nbf ** 4) * 8.e-9`, the full-ERI estimate in GB (line 59). -/
def I_Size (nbf : ℕ) : ℚ := (nbf : ℚ) ^ 4 * 8 / 10 ^ 9

/-- `oNNN_Size = (nocc * nbf ** 3) * 8.e-9` (line 60). -/
def oNNN_Size (nocc nbf : ℕ) : ℚ := (nocc : ℚ) * (nbf : ℚ) ^ 3 * 8 / 10 ^ 9

/-- `ovov_Size = (nocc * nocc * nvir * nvir) * 8.e-9` (line 61). -/
def ovov_Size (nocc nvir : ℕ) : ℚ :=
  (nocc : ℚ) * (nocc : ℚ) * (nvir : ℚ) * (nvir : ℚ) * 8 / 10 ^ 9

/-- `eps_diag[a, i] = epsilon[nocc + a] - epsilon[i]` (line 79). -/
def eps_diag {nocc nvir : ℕ} (ε : Fin (nocc + nvir) → ℚ) :
    Matrix (Fin nvir) (Fin nocc) ℚ :=
  Matrix.of fun a i => ε (vix a) - ε (oix i)

/-- The electronic Hessian built in `solve_static_direct` (lines 77-89):
orbital-energy diagonal, `+ 4 MO[:, nocc:, :nocc, nocc:]`, minus that block
with axes 0 and 2 swapped, minus `MO[:, :nocc, nocc:, nocc:]` with axes 1
and 2 swapped. -/
def buildH {nocc nvir : ℕ} (ε : Fin (nocc + nvir) → ℚ) (MO : ERI nocc nvir) :
    T4 nocc nvir :=
  let docc : Matrix (Fin nocc) (Fin nocc) ℚ := 1
  let dvir : Matrix (Fin nvir) (Fin nvir) ℚ := 1
  let H0 : T4 nocc nvir := fun i a j b => eps_diag ε a i * docc i j * dvir a b
  let H1 : T4 nocc nvir := fun i a j b => H0 i a j b + 4 * MO i (vix a) (oix j) (vix b)
  let H2 : T4 nocc nvir := fun i a j b => H1 i a j b - MO j (vix a) (oix i) (vix b)
  fun i a j b => H2 i a j b - MO i (oix j) (vix a) (vix b)

/-- First component of the row-major decoding of a flattened `(occ, vir)`
compound index (numpy `reshape(nocc * nvir, -1)`). -/
def decO {nocc nvir : ℕ} (r : Fin (nocc * nvir)) : Fin nocc :=
  ⟨(r : ℕ) / nvir, by
    have h := r.isLt
    have hv : 0 < nvir := by
      rcases Nat.eq_zero_or_pos nvir with h0 | h0
      · exact absurd h (by simp [h0])
      · exact h0
    exact (Nat.div_lt_iff_lt_mul hv).2 h⟩

/-- Second component of the row-major decoding of a flattened `(occ, vir)`
compound index. -/
def decV {nocc nvir : ℕ} (r : Fin (nocc * nvir)) : Fin nvir :=
  ⟨(r : ℕ) % nvir, by
    have h := r.isLt
    have hv : 0 < nvir := by
      rcases Nat.eq_zero_or_pos nvir with h0 | h0
      · exact absurd h (by simp [h0])
      · exact h0
    exact Nat.mod_lt _ hv⟩

/-- Row-major encoding `(i, a) ↦ i * nvir + a` of an `(occ, vir)` pair into
the flattened compound index. -/
def enc {nocc nvir : ℕ} (i : Fin nocc) (a : Fin nvir) : Fin (nocc * nvir) :=
  ⟨(i : ℕ) * nvir + (a : ℕ), by
    calc (i : ℕ) * nvir + (a : ℕ) < (i : ℕ) * nvir + nvir :=
          Nat.add_lt_add_left a.isLt _
      _ = ((i : ℕ) + 1) * nvir := by ring
      _ ≤ nocc * nvir := Nat.mul_le_mul_right nvir i.isLt⟩

/-- `H.reshape(nocc * nvir, -1)` (line 96): the Hessian as a square matrix
over row-major compound indices. -/
def reshapeH {nocc nvir : ℕ} (H : T4 nocc nvir) :
    Matrix (Fin (nocc * nvir)) (Fin (nocc * nvir)) ℚ :=
  Matrix.of fun r c => H (decO r) (decV r) (decO c) (decV c)

/-- `solve_static_direct` (lines 57-103).  If the ERI estimate exceeds the
memory budget, the state is returned unchanged together with the raised
exception; otherwise the Hessian is built, inverted (model of
`np.linalg.inv`; singular inputs, where numpy would raise `LinAlgError`,
yield the zero matrix here) and contracted against each dipole component
(`einsum('iajb,ia->jb', Hinv, dipoles_xyz[numx])`). -/
def solve_static_direct {nocc nvir : ℕ} (st : HState nocc nvir) :
    HState nocc nvir × Option CPHFError :=
  let memory_footprint := I_Size (nocc + nvir) * (3 / 2)
  if I_Size (nocc + nvir) > st.numpy_memory then
    (st, some (.memoryExceeded memory_footprint st.numpy_memory))
  else
    let H := buildH st.epsilon st.moeri
    let Hinv := qinv (reshapeH H)
    ({ st with
        x := some fun numx => Matrix.of fun j b =>
          ∑ i, ∑ a, Hinv (enc i a) (enc j b) * st.dipoles_xyz numx i a },
      none)

/-- `ia_denom = -epsilon[:nocc].reshape(-1, 1) + epsilon[nocc:]` (line 123):
`ia_denom[i, a] = epsilon[nocc + a] - epsilon[i]`. -/
def ia_denom {nocc nvir : ℕ} (ε : Fin (nocc + nvir) → ℚ) :
    Matrix (Fin nocc) (Fin nvir) ℚ :=
  Matrix.of fun i a => ε (vix a) - ε (oix i)

/-- `np.max((A - B) ** 2)`: the largest squared elementwise difference
(0 for empty matrices, where numpy would raise on an empty max). -/
def maxSqDiff {m n : ℕ} (A B : Matrix (Fin m) (Fin n) ℚ) : ℚ :=
  ((List.finRange m).flatMap fun i =>
    (List.finRange n).map fun j => (A i j - B i j) ^ 2).foldr max 0

/-- `max_RMS = max(rms)` over the three per-component values
`np.max((x[xyz] - x_old[xyz]) ** 2)` (lines 162-168). -/
def maxRMS3 {nocc nvir : ℕ} (x xold : V3 nocc nvir) : ℚ :=
  max (maxSqDiff (x 0) (xold 0))
    (max (maxSqDiff (x 1) (xold 1)) (maxSqDiff (x 2) (xold 2)))

/-- One amplitude update of `solve_static_iterative` (lines 137-159): the
`C_right` buffers are refilled with `Cv.dot(x[xyz].T)`, the JK service is
invoked, the new guess is
`(dipoles_xyz[xyz] - Co.T (4 J - K.T - K) Cv) / ia_denom`, and with
`use_diis` the external DIIS extrapolation is applied to the guess and the
residual `X - x_old[xyz]`. -/
def iterBody {nocc nvir : ℕ} (st : HState nocc nvir) (useDiis : Bool)
    (it : ℕ) (x xold : V3 nocc nvir) : V3 nocc nvir := fun xyz =>
  let CR : Fin 3 → Matrix (Fin (nocc + nvir)) (Fin nocc) ℚ :=
    fun w => st.Cv * (x w)ᵀ
  let J := st.jkJ CR xyz
  let K := st.jkK CR xyz
  let X : Matrix (Fin nocc) (Fin nvir) ℚ := Matrix.of fun i a =>
    (st.dipoles_xyz xyz i a - ((st.Co)ᵀ * ((4 : ℚ) • J - Kᵀ - K) * st.Cv) i a)
      / ia_denom st.epsilon i a
  if useDiis then st.diisExtrap it xyz X (X - xold xyz) else X

/-- One transition of the loop's compound state `(CPHF_ITER, x, x_old)`:
the amplitudes are updated and `x_old` is overwritten with the new `x`
(lines 135-165). -/
def loopStep {nocc nvir : ℕ} (st : HState nocc nvir) (useDiis : Bool)
    (s : ℕ × V3 nocc nvir × V3 nocc nvir) :
    ℕ × V3 nocc nvir × V3 nocc nvir :=
  (s.1 + 1, iterBody st useDiis s.1 s.2.1 s.2.2,
    iterBody st useDiis s.1 s.2.1 s.2.2)

/-- The `max_RMS` value the convergence test sees in the iteration executed
from compound state `s` (lines 162-168): the new amplitudes are compared
against the incoming `x_old`. -/
def rmsOf {nocc nvir : ℕ} (st : HState nocc nvir) (useDiis : Bool)
    (s : ℕ × V3 nocc nvir × V3 nocc nvir) : ℚ :=
  maxRMS3 (iterBody st useDiis s.1 s.2.1 s.2.2) s.2.2

/-- The `max_RMS` value seen in the `(k+1)`-st executed iteration when the
loop starts from compound state `s`. -/
def rmsSeq {nocc nvir : ℕ} (st : HState nocc nvir) (useDiis : Bool)
    (s : ℕ × V3 nocc nvir × V3 nocc nvir) (k : ℕ) : ℚ :=
  rmsOf st useDiis ((loopStep st useDiis)^[k] s)

/-- The `for CPHF_ITER in range(1, maxiter + 1)` loop (lines 135-175),
by remaining fuel.  The compound state is `(CPHF_ITER, x, x_old)`; the
returned number counts the executed iterations (the loop breaks as soon
as `max_RMS < conv`, after `x_old` has been overwritten with `x`). -/
def cphfLoop {nocc nvir : ℕ} (st : HState nocc nvir) (useDiis : Bool)
    (conv : ℚ) :
    ℕ → ℕ × V3 nocc nvir × V3 nocc nvir → ℕ × V3 nocc nvir
  | 0, s => (0, s.2.1)
  | f + 1, s =>
    if rmsOf st useDiis s < conv then
      (1, iterBody st useDiis s.1 s.2.1 s.2.2)
    else
      ((cphfLoop st useDiis conv f (loopStep st useDiis s)).1 + 1,
        (cphfLoop st useDiis conv f (loopStep st useDiis s)).2)

/-- The initial guess `dipoles_xyz[xyz] / ia_denom` (line 125). -/
def initGuess {nocc nvir : ℕ} (st : HState nocc nvir) : V3 nocc nvir :=
  fun xyz => Matrix.of fun i a => st.dipoles_xyz xyz i a / ia_denom st.epsilon i a

/-- The `x_old` initialization `np.zeros(ia_denom.shape)` (line 126). -/
def zeroV3 (nocc nvir : ℕ) : V3 nocc nvir := fun _ => 0

/-- `solve_static_iterative(maxiter=20, conv=1.e-9, use_diis=True)`
(lines 105-175): runs the CPHF iteration loop from the orbital-energy
initial guess (`CPHF_ITER` starting at 1, `x_old` starting at zero) and
stores the last iterate in `x`.  Reaching `maxiter` is not an error: the
function always returns normally. -/
def solve_static_iterative {nocc nvir : ℕ} (st : HState nocc nvir)
    (maxiter : ℕ) (conv : ℚ) (useDiis : Bool) : HState nocc nvir :=
  { st with
    x := some (cphfLoop st useDiis conv maxiter
      (1, initGuess st, zeroV3 nocc nvir)).2 }

/-- `form_polarizability` (lines 177-181):
`polar[numx, numf] = einsum('ia,ia->', x[numx], dipoles_xyz[numf])`.
(If `x` were still unset, python would raise; `solve` always sets it
before calling this, so the `none` branch is unreachable from `solve`.) -/
def form_polarizability {nocc nvir : ℕ} (st : HState nocc nvir) :
    HState nocc nvir :=
  match st.x with
  | none => st
  | some xv =>
    { st with
      polar := some (Matrix.of fun numx numf =>
        ∑ i, ∑ a, xv numx i a * st.dipoles_xyz numf i a) }

/-- `solve` (lines 48-55): dispatch on the `method` string, then derive the
polarizability.  An unrecognized method raises before any computation; the
raised exception is returned alongside the state as it was at the raise. -/
def solve {nocc nvir : ℕ} (st : HState nocc nvir) :
    HState nocc nvir × Option CPHFError :=
  if st.method = "direct" then
    let r := solve_static_direct st
    match r.2 with
    | some e => (r.1, some e)
    | none => (form_polarizability r.1, none)
  else if st.method = "iterative" then
    (form_polarizability (solve_static_iterative st 20 (1 / 1000000000) true),
      none)
  else
    (st, some (.methodNotRecognized st.method))

/-!
## `beta.py`: the response tensor assembler
-/

/-- The antisymmetric embedding of a response vector (`beta.py` lines
63-66): `U[:nocc, nocc:] = 0.5 * x`, `U[nocc:, :nocc] = -0.5 * x.T`,
zero elsewhere. -/
def embedU {nocc nvir : ℕ} (x : Matrix (Fin nocc) (Fin nvir) ℚ) :
    Matrix (Fin (nocc + nvir)) (Fin (nocc + nvir)) ℚ :=
  Matrix.of fun p q =>
    if hp : (p : ℕ) < nocc then
      if hq : (q : ℕ) < nocc then 0
      else (1 / 2) * x ⟨p, hp⟩ ⟨(q : ℕ) - nocc, by have := q.isLt; omega⟩
    else
      if hq : (q : ℕ) < nocc then
        -((1 / 2) * x ⟨q, hq⟩ ⟨(p : ℕ) - nocc, by have := p.isLt; omega⟩)
      else 0

/-- The frequency shift, hard-coded `omega = 0` for the static case
(`beta.py` line 97). -/
def omegaStatic : ℚ := 0

/-- `eoU = (moenergies[..., np.newaxis] + omega) * U[i]` (line 99):
column-broadcast product `(ε_p + ω) · U[p, q]`. -/
def eoU {n : ℕ} (ε : Fin n → ℚ) (U : Matrix (Fin n) (Fin n) ℚ) :
    Matrix (Fin n) (Fin n) ℚ :=
  Matrix.of fun p q => (ε p + omegaStatic) * U p q

/-- `Ue = U[i] * moenergies[np.newaxis, ...]` (line 100): row-broadcast
product `U[p, q] · ε_q`. -/
def Ue {n : ℕ} (ε : Fin n → ℚ) (U : Matrix (Fin n) (Fin n) ℚ) :
    Matrix (Fin n) (Fin n) ℚ :=
  Matrix.of fun p q => U p q * ε q

/-- `E[i] = G[i] + (eoU - Ue)` (lines 96-101). -/
def Emat {n : ℕ} (ε : Fin n → ℚ) (G U : Matrix (Fin n) (Fin n) ℚ) :
    Matrix (Fin n) (Fin n) ℚ :=
  G + (eoU ε U - Ue ε U)

/-- `np.trace(M[:nocc, :nocc])`: the occupied-block trace. -/
def occTrace {nocc nvir : ℕ}
    (M : Matrix (Fin (nocc + nvir)) (Fin (nocc + nvir)) ℚ) : ℚ :=
  ∑ i : Fin nocc, M (oix i) (oix i)

/-- `off1 = [0, 1, 2, 0, 0, 1]` (line 106): the `b` index of each row. -/
def off1 : Fin 6 → Fin 3 := ![0, 1, 2, 0, 0, 1]

/-- `off2 = [0, 1, 2, 1, 2, 2]` (line 107): the `c` index of each row. -/
def off2 : Fin 6 → Fin 3 := ![0, 1, 2, 1, 2, 2]

/-- The 6×3 hyperpolarizability contraction (`beta.py` lines 105-123),
entry by entry exactly as in the source: three doubled "left" traces of
`U·G·U` products and six "right" traces of `U·U·E` products. -/
def hyperpolarizability {nocc nvir : ℕ}
    (U G E : Fin 3 → Matrix (Fin (nocc + nvir)) (Fin (nocc + nvir)) ℚ) :
    Matrix (Fin 6) (Fin 3) ℚ :=
  Matrix.of fun r a =>
    let b := off1 r
    let c := off2 r
    let tl1 := 2 * occTrace (U a * G b * U c)
    let tl2 := 2 * occTrace (U a * G c * U b)
    let tl3 := 2 * occTrace (U c * G a * U b)
    let tr1 := occTrace (U c * U b * E a)
    let tr2 := occTrace (U b * U c * E a)
    let tr3 := occTrace (U c * U a * E b)
    let tr4 := occTrace (U a * U c * E b)
    let tr5 := occTrace (U b * U a * E c)
    let tr6 := occTrace (U a * U b * E c)
    let tl := tl1 + tl2 + tl3
    let tr := tr1 + tr2 + tr3 + tr4 + tr5 + tr6;
    -2 * (tl - tr)

/-- `sum_left` as the claim words it: the plain sum of the three
occupied-block traces of `U_a·G_b·U_c`, `U_a·G_c·U_b`, `U_c·G_a·U_b`
(no factor 2 on the individual traces). -/
def sumLeft {nocc nvir : ℕ}
    (U G : Fin 3 → Matrix (Fin (nocc + nvir)) (Fin (nocc + nvir)) ℚ)
    (a b c : Fin 3) : ℚ :=
  occTrace (U a * G b * U c) + occTrace (U a * G c * U b) +
    occTrace (U c * G a * U b)

/-- `sum_right`: the sum of the six occupied-block traces of `U·U·E`
products, one per ordering of the three indices, matching the six right
terms of the source. -/
def sumRight {nocc nvir : ℕ}
    (U E : Fin 3 → Matrix (Fin (nocc + nvir)) (Fin (nocc + nvir)) ℚ)
    (a b c : Fin 3) : ℚ :=
  occTrace (U c * U b * E a) + occTrace (U b * U c * E a) +
    occTrace (U c * U a * E b) + occTrace (U a * U c * E b) +
    occTrace (U b * U a * E c) + occTrace (U a * U b * E c)

/-!
## Theorems
-/

/-- C6: for every component, `E[p, q] = G[p, q] + (ε_p + ω)·U[p, q] −
U[p, q]·ε_q`, with the frequency shift `ω` equal to zero in the static
case. -/
theorem Emat_formula {n : ℕ} (ε : Fin n → ℚ) (G U : Matrix (Fin n) (Fin n) ℚ) :
    (∀ p q, Emat ε G U p q =
      G p q + (ε p + omegaStatic) * U p q - U p q * ε q) ∧
    omegaStatic = 0 := by
  refine ⟨fun p q => ?_, rfl⟩
  simp only [Emat, eoU, Ue, Matrix.add_apply, Matrix.sub_apply, Matrix.of_apply]
  ring

/-- C7: the embedded rotation generator has `0.5·x` as its
occupied×virtual block, `−0.5·xᵀ` as its virtual×occupied block, zeroes
elsewhere, and is antisymmetric. -/
theorem embedU_blocks {nocc nvir : ℕ} (x : Matrix (Fin nocc) (Fin nvir) ℚ) :
    (∀ (i : Fin nocc) (a : Fin nvir),
      embedU x (oix i) (vix a) = (1 / 2) * x i a) ∧
    (∀ (i : Fin nocc) (a : Fin nvir),
      embedU x (vix a) (oix i) = -((1 / 2) * x i a)) ∧
    (∀ p q : Fin (nocc + nvir),
      (p : ℕ) < nocc → (q : ℕ) < nocc → embedU x p q = 0) ∧
    (∀ p q : Fin (nocc + nvir),
      nocc ≤ (p : ℕ) → nocc ≤ (q : ℕ) → embedU x p q = 0) ∧
    (∀ p q : Fin (nocc + nvir), embedU x q p = -(embedU x p q)) := by
  have e1 : ∀ (i : Fin nocc) h,
      (⟨((@oix nocc nvir i : Fin (nocc + nvir)) : ℕ), h⟩ : Fin nocc) = i :=
    fun i h => Fin.ext (by simp [oix])
  have e2 : ∀ (a : Fin nvir) h,
      (⟨((@vix nocc nvir a : Fin (nocc + nvir)) : ℕ) - nocc, h⟩ : Fin nvir) = a :=
    fun a h => Fin.ext (by simp [vix, Fin.natAdd])
  have ho : ∀ i : Fin nocc, ((@oix nocc nvir i : Fin (nocc + nvir)) : ℕ) < nocc :=
    fun i => by simp [oix]
  have hv : ∀ a : Fin nvir,
      ¬ ((@vix nocc nvir a : Fin (nocc + nvir)) : ℕ) < nocc :=
    fun a => by simp only [vix, Fin.coe_natAdd]; omega
  refine ⟨fun i a => ?_, fun i a => ?_, fun p q hp hq => ?_,
    fun p q hp hq => ?_, fun p q => ?_⟩
  · simp only [embedU, Matrix.of_apply, dif_pos (ho i), dif_neg (hv a)]
    rw [e1, e2]
  · simp only [embedU, Matrix.of_apply, dif_neg (hv a), dif_pos (ho i)]
    rw [e1, e2]
  · simp only [embedU, Matrix.of_apply, dif_pos hp, dif_pos hq]
  · simp only [embedU, Matrix.of_apply, dif_neg (not_lt.2 hp), dif_neg (not_lt.2 hq)]
  · by_cases hp : (p : ℕ) < nocc <;> by_cases hq : (q : ℕ) < nocc <;>
      simp [embedU, hp, hq]

/-- C1 (amended form): every entry of the assembled tensor equals
`−2·(2·sum_left − sum_right)`: each left trace carries a factor 2 in the
source, and the six right traces run over all six orderings of the three
indices. -/
theorem hyperpolarizability_entry {nocc nvir : ℕ}
    (U G E : Fin 3 → Matrix (Fin (nocc + nvir)) (Fin (nocc + nvir)) ℚ)
    (r : Fin 6) (a : Fin 3) :
    hyperpolarizability U G E r a =
      -2 * (2 * sumLeft U G a (off1 r) (off2 r) -
        sumRight U E a (off1 r) (off2 r)) := by
  simp only [hyperpolarizability, sumLeft, sumRight, Matrix.of_apply]
  ring

/-- Concrete 1-occupied/1-virtual response vector used to refute C1 as
stated. -/
def xC1 : Matrix (Fin 1) (Fin 1) ℚ := Matrix.of fun _ _ => 2

/-- Concrete embedded rotation generators for the C1 counterexample. -/
def UC1 : Fin 3 → Matrix (Fin (1 + 1)) (Fin (1 + 1)) ℚ := fun _ => embedU xC1

/-- Concrete generalized Fock matrices for the C1 counterexample. -/
def GC1 : Fin 3 → Matrix (Fin (1 + 1)) (Fin (1 + 1)) ℚ := fun _ =>
  Matrix.of fun p q => if (p : ℕ) = 1 ∧ (q : ℕ) = 1 then 1 else 0

/-- Concrete energy-weighted matrices for the C1 counterexample, derived
through `Emat` with all orbital energies zero (so `E = G`). -/
def EC1 : Fin 3 → Matrix (Fin (1 + 1)) (Fin (1 + 1)) ℚ := fun i =>
  Emat (fun _ => 0) (GC1 i) (UC1 i)

/-- C1 (counterexample): at the concrete inputs above, the tensor entry at
row 0 (pair `(x,x)`), free index `x`, is `−2·(2·sum_left − sum_right)` =
12, not the claimed `−2·(sum_left − sum_right)` = 6: the source doubles
each left trace. -/
theorem hyperpolarizability_claim_false :
    hyperpolarizability UC1 GC1 EC1 0 0 ≠
      -2 * (sumLeft UC1 GC1 0 (off1 0) (off2 0) -
        sumRight UC1 EC1 0 (off1 0) (off2 0)) := by
  norm_num [hyperpolarizability, sumLeft, sumRight, Matrix.of_apply, UC1, GC1,
    EC1, xC1, Emat, eoU, Ue, omegaStatic, embedU, occTrace, off1, off2,
    Matrix.mul_apply, Fin.sum_univ_succ, Fin.sum_univ_zero, Fin.val_succ,
    Fin.val_zero, oix, vix, Fin.natAdd, Fin.castAdd, Matrix.add_apply,
    Matrix.sub_apply]

/-- C2: in direct mode the Hessian entry `(i, a, j, b)` is the diagonal
orbital-energy-difference term plus `4·(ia|jb)` minus `(ja|ib)` minus
`(ij|ab)`; the reshaped Hessian is inverted exactly (two-sided inverse);
and each of the 3 response vectors is the contraction of the inverse
against the matching perturbation over the paired `(i, a)` indices. -/
theorem solve_static_direct_spec {nocc nvir : ℕ} (st : HState nocc nvir)
    (hmem : ¬ I_Size (nocc + nvir) > st.numpy_memory)
    (hdet : (reshapeH (buildH st.epsilon st.moeri)).det ≠ 0) :
    (∀ i a j b, buildH st.epsilon st.moeri i a j b =
      (st.epsilon (vix a) - st.epsilon (oix i)) *
          (if i = j then 1 else 0) * (if a = b then 1 else 0) +
        4 * st.moeri i (vix a) (oix j) (vix b) -
        st.moeri j (vix a) (oix i) (vix b) -
        st.moeri i (oix j) (vix a) (vix b)) ∧
    qinv (reshapeH (buildH st.epsilon st.moeri)) *
      reshapeH (buildH st.epsilon st.moeri) = 1 ∧
    reshapeH (buildH st.epsilon st.moeri) *
      qinv (reshapeH (buildH st.epsilon st.moeri)) = 1 ∧
    (solve_static_direct st).2 = none ∧
    (solve_static_direct st).1.x = some (fun numx => Matrix.of fun j b =>
      ∑ i, ∑ a, qinv (reshapeH (buildH st.epsilon st.moeri)) (enc i a) (enc j b) *
        st.dipoles_xyz numx i a) := by
  refine ⟨fun i a j b => ?_, qinv_mul _ hdet, mul_qinv _ hdet, ?_⟩
  · simp only [buildH, eps_diag, Matrix.of_apply, Matrix.one_apply]
  · simp only [solve_static_direct, if_neg hmem]
    trivial

/-- C3: when the full-ERI estimate exceeds the configured budget, direct
mode raises the resource-exhaustion exception immediately: the returned
state is the input state unchanged, so no MO tensor, Hessian or response
vector has been attached to it. -/
theorem solve_static_direct_memguard {nocc nvir : ℕ} (st : HState nocc nvir)
    (h : I_Size (nocc + nvir) > st.numpy_memory) :
    solve_static_direct st =
      (st, some (.memoryExceeded (I_Size (nocc + nvir) * (3 / 2))
        st.numpy_memory)) ∧
    (solve_static_direct st).1 = st ∧
    (solve_static_direct st).1.x = st.x ∧
    (solve_static_direct st).1.polar = st.polar := by
  have h1 : solve_static_direct st =
      (st, some (.memoryExceeded (I_Size (nocc + nvir) * (3 / 2))
        st.numpy_memory)) := by
    simp only [solve_static_direct, if_pos h]
  exact ⟨h1, by rw [h1], by rw [h1], by rw [h1]⟩

/-- C9: an unrecognized solver-mode string makes `solve` raise the
configuration exception at once: the state comes back unchanged, so the
response vectors stay unset and no polarizability is formed. -/
theorem solve_bad_method {nocc nvir : ℕ} (st : HState nocc nvir)
    (h1 : st.method ≠ "direct") (h2 : st.method ≠ "iterative") :
    solve st = (st, some (.methodNotRecognized st.method)) ∧
    (solve st).1.x = st.x ∧ (solve st).1.polar = st.polar := by
  have hs : solve st = (st, some (.methodNotRecognized st.method)) := by
    simp only [solve, if_neg h1, if_neg h2]
  exact ⟨hs, by rw [hs], by rw [hs]⟩

/-- C10: in direct mode the resource-exhaustion exception is raised iff
the unscaled full-ERI estimate `I_Size` alone exceeds the budget — the
also-computed `oNNN`/`ovov` estimates never enter the comparison (two
states with the same `nbf` and budget but different occupied/virtual
splits behave identically) — while the message reports `1.5 × I_Size`. -/
theorem solve_static_direct_memcheck_only_ISize
    {nocc nvir nocc2 nvir2 : ℕ}
    (st : HState nocc nvir) (st2 : HState nocc2 nvir2)
    (hnbf : nocc + nvir = nocc2 + nvir2)
    (hbudget : st.numpy_memory = st2.numpy_memory) :
    ((∃ q l, (solve_static_direct st).2 = some (.memoryExceeded q l)) ↔
      I_Size (nocc + nvir) > st.numpy_memory) ∧
    (I_Size (nocc + nvir) > st.numpy_memory →
      (solve_static_direct st).2 =
        some (.memoryExceeded (I_Size (nocc + nvir) * (3 / 2))
          st.numpy_memory)) ∧
    ((∃ q l, (solve_static_direct st).2 = some (.memoryExceeded q l)) ↔
      (∃ q l, (solve_static_direct st2).2 = some (.memoryExceeded q l))) := by
  have key : ∀ (no nv : ℕ) (s : HState no nv),
      (∃ q l, (solve_static_direct s).2 = some (.memoryExceeded q l)) ↔
        I_Size (no + nv) > s.numpy_memory := by
    intro no nv s
    by_cases hc : I_Size (no + nv) > s.numpy_memory
    · simp only [solve_static_direct, if_pos hc]
      exact ⟨fun _ => hc, fun _ => ⟨_, _, rfl⟩⟩
    · simp only [solve_static_direct, if_neg hc]
      simp [hc]
  refine ⟨key _ _ st, fun hc => ?_, ?_⟩
  · simp only [solve_static_direct, if_pos hc]
  · rw [key _ _ st, key _ _ st2, hnbf, hbudget]

/-- C5: whenever `solve` returns without an exception (either mode), the
polarizability has been formed, and its `(numx, numf)` entry is the full
occupied×virtual elementwise contraction of response vector `numx` with
perturbation matrix `numf`. -/
theorem solve_forms_polarizability {nocc nvir : ℕ} (st : HState nocc nvir)
    (h : (solve st).2 = none) :
    ∃ xv P, (solve st).1.x = some xv ∧ (solve st).1.polar = some P ∧
      ∀ numx numf, P numx numf =
        ∑ i, ∑ a, xv numx i a * (solve st).1.dipoles_xyz numf i a := by
  by_cases hd : st.method = "direct"
  · by_cases hm : I_Size (nocc + nvir) > st.numpy_memory
    · exfalso
      rw [solve, if_pos hd] at h
      simp only [solve_static_direct, if_pos hm] at h
      exact Option.noConfusion h
    · rw [solve, if_pos hd]
      simp only [solve_static_direct, if_neg hm]
      exact ⟨_, _, rfl, rfl, fun _ _ => rfl⟩
  · by_cases hi : st.method = "iterative"
    · rw [solve, if_neg hd, if_pos hi]
      exact ⟨_, _, rfl, rfl, fun _ _ => rfl⟩
    · exfalso
      rw [solve, if_neg hd, if_neg hi] at h
      simp at h

theorem sum_swap_pairs {α β γ δ : Type} [Fintype α] [Fintype β] [Fintype γ]
    [Fintype δ] (F : α → β → γ → δ → ℚ) :
    ∑ j : α, ∑ b : β, ∑ i : γ, ∑ a : δ, F j b i a =
      ∑ i : γ, ∑ a : δ, ∑ j : α, ∑ b : β, F j b i a :=
  calc ∑ j : α, ∑ b : β, ∑ i : γ, ∑ a : δ, F j b i a
      = ∑ j : α, ∑ i : γ, ∑ b : β, ∑ a : δ, F j b i a :=
        Finset.sum_congr rfl fun _ _ => Finset.sum_comm
    _ = ∑ i : γ, ∑ j : α, ∑ b : β, ∑ a : δ, F j b i a := Finset.sum_comm
    _ = ∑ i : γ, ∑ j : α, ∑ a : δ, ∑ b : β, F j b i a :=
        Finset.sum_congr rfl fun _ _ =>
          Finset.sum_congr rfl fun _ _ => Finset.sum_comm
    _ = ∑ i : γ, ∑ a : δ, ∑ j : α, ∑ b : β, F j b i a :=
        Finset.sum_congr rfl fun _ _ => Finset.sum_comm

/-- Full 8-fold permutational symmetry of the real two-electron integrals
makes the electronic Hessian symmetric under `(i, a) ↔ (j, b)`. -/
theorem buildH_symm {nocc nvir : ℕ} (ε : Fin (nocc + nvir) → ℚ)
    (MO : ERI nocc nvir)
    (hsym1 : ∀ (i j : Fin nocc) (p q : Fin (nocc + nvir)),
      MO i p (oix j) q = MO j q (oix i) p)
    (hsym2 : ∀ (i j : Fin nocc) (p q : Fin (nocc + nvir)),
      MO i (oix j) p q = MO j (oix i) q p) :
    ∀ i a j b, buildH ε MO i a j b = buildH ε MO j b i a := by
  intro i a j b
  have hT1 : (ε (vix a) - ε (oix i)) * (if i = j then (1 : ℚ) else 0) *
        (if a = b then (1 : ℚ) else 0) =
      (ε (vix b) - ε (oix j)) * (if j = i then (1 : ℚ) else 0) *
        (if b = a then (1 : ℚ) else 0) := by
    by_cases hij : i = j
    · by_cases hab : a = b
      · subst hij; subst hab; rfl
      · have hba : ¬ b = a := fun h => hab h.symm
        simp [hab, hba]
    · have hji : ¬ j = i := fun h => hij h.symm
      simp [hij, hji]
  simp only [buildH, eps_diag, Matrix.of_apply, Matrix.one_apply]
  rw [hT1, hsym1 i j (vix a) (vix b), hsym1 j i (vix a) (vix b),
    hsym2 i j (vix a) (vix b)]

/-- The entries of the inverse of a symmetric matrix are symmetric. -/
theorem qinv_apply_symm {n : ℕ} (A : Matrix (Fin n) (Fin n) ℚ)
    (hA : ∀ r c, A r c = A c r) : ∀ r c, qinv A r c = qinv A c r := by
  have hT : Aᵀ = A := Matrix.ext fun r c => by
    rw [Matrix.transpose_apply, hA]
  have hq := qinv_symm A hT
  intro r c
  calc qinv A r c = (qinv A)ᵀ c r := rfl
    _ = qinv A c r := by rw [hq]

/-- Contraction of a symmetric kernel against two weight matrices is
symmetric in the two weights. -/
theorem contract_sym_nested {nocc nvir N : ℕ} (M : Matrix (Fin N) (Fin N) ℚ)
    (hM : ∀ r c, M r c = M c r) (e : Fin nocc → Fin nvir → Fin N)
    (u v : Fin nocc → Fin nvir → ℚ) :
    ∑ j, ∑ b, (∑ i, ∑ a, M (e i a) (e j b) * u i a) * v j b =
      ∑ j, ∑ b, (∑ i, ∑ a, M (e i a) (e j b) * v i a) * u j b := by
  simp only [Finset.sum_mul]
  conv_lhs => rw [sum_swap_pairs]
  refine Finset.sum_congr rfl fun w _ => Finset.sum_congr rfl fun x _ =>
    Finset.sum_congr rfl fun y _ => Finset.sum_congr rfl fun z _ => ?_
  rw [hM]
  ring

/-- C8: for a non-degenerate reference with fully symmetric real
two-electron integrals, the polarizability tensor produced by the direct
solve is symmetric (exactly, in this rational model). -/
theorem polarizability_symmetric {nocc nvir : ℕ} (st : HState nocc nvir)
    (hmethod : st.method = "direct")
    (hmem : ¬ I_Size (nocc + nvir) > st.numpy_memory)
    (hdet : (reshapeH (buildH st.epsilon st.moeri)).det ≠ 0)
    (hsym1 : ∀ (i j : Fin nocc) (p q : Fin (nocc + nvir)),
      st.moeri i p (oix j) q = st.moeri j q (oix i) p)
    (hsym2 : ∀ (i j : Fin nocc) (p q : Fin (nocc + nvir)),
      st.moeri i (oix j) p q = st.moeri j (oix i) q p) :
    ∃ P, (solve st).1.polar = some P ∧ ∀ i f, P i f = P f i := by
  have hM : ∀ r c, qinv (reshapeH (buildH st.epsilon st.moeri)) r c =
      qinv (reshapeH (buildH st.epsilon st.moeri)) c r :=
    qinv_apply_symm _ fun r c => buildH_symm _ _ hsym1 hsym2 _ _ _ _
  rw [solve, if_pos hmethod]
  simp only [solve_static_direct, if_neg hmem, form_polarizability]
  refine ⟨_, rfl, fun i f => ?_⟩
  simp only [Matrix.of_apply]
  exact contract_sym_nested _ hM enc (st.dipoles_xyz i) (st.dipoles_xyz f)

theorem rmsSeq_succ {nocc nvir : ℕ} (st : HState nocc nvir) (d : Bool)
    (s : ℕ × V3 nocc nvir × V3 nocc nvir) (k : ℕ) :
    rmsSeq st d s (k + 1) = rmsSeq st d (loopStep st d s) k := by
  simp [rmsSeq, Function.iterate_succ_apply]

theorem rmsSeq_zero {nocc nvir : ℕ} (st : HState nocc nvir) (d : Bool)
    (s : ℕ × V3 nocc nvir × V3 nocc nvir) :
    rmsSeq st d s 0 = rmsOf st d s := by
  simp [rmsSeq]

theorem cphfLoop_count_le {nocc nvir : ℕ} (st : HState nocc nvir) (d : Bool)
    (conv : ℚ) :
    ∀ (f : ℕ) (s), (cphfLoop st d conv f s).1 ≤ f := by
  intro f
  induction f with
  | zero => intro s; simp [cphfLoop]
  | succ n ih =>
    intro s
    simp only [cphfLoop]
    split
    · omega
    · exact Nat.succ_le_succ (ih _)

theorem cphfLoop_stops_first {nocc nvir : ℕ} (st : HState nocc nvir)
    (d : Bool) (conv : ℚ) :
    ∀ (f : ℕ) (s) (k : ℕ), k < f → rmsSeq st d s k < conv →
      (∀ j, j < k → ¬ rmsSeq st d s j < conv) →
      (cphfLoop st d conv f s).1 = k + 1 := by
  intro f
  induction f with
  | zero => intro s k hk; exact absurd hk (Nat.not_lt_zero k)
  | succ n ih =>
    intro s k hk hconv hmin
    match k with
    | 0 =>
      have h0 : rmsOf st d s < conv := by rwa [rmsSeq_zero] at hconv
      simp only [cphfLoop, if_pos h0]
    | k' + 1 =>
      have h0 : ¬ rmsOf st d s < conv := by
        have := hmin 0 (Nat.succ_pos k')
        rwa [rmsSeq_zero] at this
      simp only [cphfLoop, if_neg h0]
      have hrec := ih (loopStep st d s) k' (by omega)
        (by rwa [← rmsSeq_succ])
        (fun j hj => by
          rw [← rmsSeq_succ]
          exact hmin (j + 1) (by omega))
      omega

theorem cphfLoop_reaches_cap {nocc nvir : ℕ} (st : HState nocc nvir)
    (d : Bool) (conv : ℚ) :
    ∀ (f : ℕ) (s), (∀ k, k < f → ¬ rmsSeq st d s k < conv) →
      (cphfLoop st d conv f s).1 = f := by
  intro f
  induction f with
  | zero => intro s _; simp [cphfLoop]
  | succ n ih =>
    intro s h
    have h0 : ¬ rmsOf st d s < conv := by
      have := h 0 (Nat.succ_pos n)
      rwa [rmsSeq_zero] at this
    simp only [cphfLoop, if_neg h0]
    have := ih (loopStep st d s) (fun k hk => by
      rw [← rmsSeq_succ]
      exact h (k + 1) (by omega))
    omega

/-- C4 (amended): the iterative solve loop executes at most `maxiter`
iterations; it stops at the first iteration whose convergence measure
(the max over the 3 components of the max squared elementwise change of
the new amplitudes from the stored `x_old` — the previous iterate after
the first iteration, the zero matrix, not the initial guess, at the first
iteration) falls below the tolerance; if no iteration meets the tolerance
it runs exactly `maxiter` iterations; and the solver then returns
normally, storing the final iterate, rather than raising. -/
theorem solve_static_iterative_termination {nocc nvir : ℕ}
    (st : HState nocc nvir) (maxiter : ℕ) (conv : ℚ) (useDiis : Bool) :
    (cphfLoop st useDiis conv maxiter
      (1, initGuess st, zeroV3 nocc nvir)).1 ≤ maxiter ∧
    (∀ k, k < maxiter →
      rmsSeq st useDiis (1, initGuess st, zeroV3 nocc nvir) k < conv →
      (∀ j, j < k →
        ¬ rmsSeq st useDiis (1, initGuess st, zeroV3 nocc nvir) j < conv) →
      (cphfLoop st useDiis conv maxiter
        (1, initGuess st, zeroV3 nocc nvir)).1 = k + 1) ∧
    ((∀ k, k < maxiter →
      ¬ rmsSeq st useDiis (1, initGuess st, zeroV3 nocc nvir) k < conv) →
      (cphfLoop st useDiis conv maxiter
        (1, initGuess st, zeroV3 nocc nvir)).1 = maxiter) ∧
    solve_static_iterative st maxiter conv useDiis =
      { st with x := some (cphfLoop st useDiis conv maxiter
          (1, initGuess st, zeroV3 nocc nvir)).2 } :=
  ⟨cphfLoop_count_le st useDiis conv maxiter _,
    fun k hk => cphfLoop_stops_first st useDiis conv maxiter _ k hk,
    cphfLoop_reaches_cap st useDiis conv maxiter _,
    rfl⟩

/-!
## Concrete instances for witnesses and counterexamples
-/

/-- Occupied coefficient column `(1, 0)ᵀ` of a 2-orbital model system. -/
def CoW : Matrix (Fin (1 + 1)) (Fin 1) ℚ :=
  Matrix.of fun p _ => if (p : ℕ) = 0 then 1 else 0

/-- Virtual coefficient column `(0, 1)ᵀ` of a 2-orbital model system. -/
def CvW : Matrix (Fin (1 + 1)) (Fin 1) ℚ :=
  Matrix.of fun p _ => if (p : ℕ) = 1 then 1 else 0

/-- A 1-occupied/1-virtual model state in direct mode: orbital energies
`(0, 1)`, unit dipole perturbations, vanishing two-electron integrals and
JK service, 2 GB budget, response vectors and polarizability unset. -/
def stDirect : HState 1 1 where
  epsilon := fun p => ((p : ℕ) : ℚ)
  dipoles_xyz := fun _ => Matrix.of fun _ _ => 1
  moeri := fun _ _ _ _ => 0
  Co := CoW
  Cv := CvW
  jkJ := fun _ _ => 0
  jkK := fun _ _ => 0
  diisExtrap := fun _ _ X _ => X
  method := "direct"
  numpy_memory := 2
  x := none
  polar := none

/-- `stDirect` with a zero memory budget, so the ERI estimate exceeds it. -/
def stSmallMem : HState 1 1 := { stDirect with numpy_memory := 0 }

/-- `stDirect` switched to iterative mode. -/
def stIter : HState 1 1 := { stDirect with method := "iterative" }

/-- `stDirect` with an unrecognized solver-mode string. -/
def stBad : HState 1 1 := { stDirect with method := "cphf" }

/-- Iterative-mode state whose JK service reproduces the dipole
perturbation exactly, so that the first amplitude update lands on the
zero matrix: `Coᵀ (4 J) Cv = 1` against the unit dipole. -/
def stJK : HState 1 1 :=
  { stDirect with
    method := "iterative"
    jkJ := fun _ _ =>
      Matrix.of fun p q => if (p : ℕ) = 0 ∧ (q : ℕ) = 1 then (1 / 4) else 0 }

/-- A 2-occupied/0-virtual state with the same total orbital count and
budget as `stDirect`, used to show the memory check ignores the
occupied/virtual split. -/
def stC10 : HState 2 0 where
  epsilon := fun p => ((p : ℕ) : ℚ)
  dipoles_xyz := fun _ => 0
  moeri := fun _ _ _ _ => 0
  Co := 0
  Cv := 0
  jkJ := fun _ _ => 0
  jkK := fun _ _ => 0
  diisExtrap := fun _ _ X _ => X
  method := "direct"
  numpy_memory := 2
  x := none
  polar := none

/-- Witness for C3: on the zero-budget state the estimate exceeds the
budget and the exception carrying the 1.5-scaled footprint is raised with
the state untouched. -/
theorem solve_static_direct_memguard_witness :
    I_Size (1 + 1) > stSmallMem.numpy_memory ∧
    solve_static_direct stSmallMem =
      (stSmallMem, some (.memoryExceeded (I_Size (1 + 1) * (3 / 2))
        stSmallMem.numpy_memory)) := by
  have h : I_Size (1 + 1) > stSmallMem.numpy_memory := by
    norm_num [I_Size, stSmallMem, stDirect]
  exact ⟨h, (solve_static_direct_memguard stSmallMem h).1⟩

/-- Witness for C9: a `"cphf"` method string raises the configuration
exception with the state unchanged. -/
theorem solve_bad_method_witness :
    stBad.method ≠ "direct" ∧ stBad.method ≠ "iterative" ∧
    solve stBad = (stBad, some (.methodNotRecognized stBad.method)) := by
  have h1 : stBad.method ≠ "direct" := by simp [stBad, stDirect]
  have h2 : stBad.method ≠ "iterative" := by simp [stBad, stDirect]
  exact ⟨h1, h2, (solve_bad_method stBad h1 h2).1⟩

/-- Witness for C10: with a 2 GB budget and 2 orbitals the memory
exception is not raised, and this is invariant under moving both orbitals
into the occupied block. -/
theorem solve_static_direct_memcheck_only_ISize_witness :
    1 + 1 = 2 + 0 ∧ stDirect.numpy_memory = stC10.numpy_memory ∧
    ((∃ q l, (solve_static_direct stDirect).2 =
        some (.memoryExceeded q l)) ↔
      I_Size (1 + 1) > stDirect.numpy_memory) := by
  refine ⟨rfl, rfl, ?_⟩
  exact (solve_static_direct_memcheck_only_ISize stDirect stC10 rfl rfl).1

/-- Witness for C5: the iterative-mode model state solves without an
exception and the polarizability entries are the stated contractions. -/
theorem solve_forms_polarizability_witness :
    (solve stIter).2 = none ∧
    (∃ xv P, (solve stIter).1.x = some xv ∧ (solve stIter).1.polar = some P ∧
      ∀ numx numf, P numx numf =
        ∑ i, ∑ a, xv numx i a * (solve stIter).1.dipoles_xyz numf i a) := by
  have h : (solve stIter).2 = none := by
    simp [solve, stIter, stDirect]
  exact ⟨h, solve_forms_polarizability stIter h⟩

/-- Witness for C7: at the concrete response vector, the top-left
(occupied×occupied) entry of the embedded generator vanishes. -/
theorem embedU_blocks_witness :
    (((0 : Fin (1 + 1)) : ℕ) < 1) ∧ embedU xC1 0 0 = 0 :=
  ⟨by decide, (embedU_blocks xC1).2.2.1 0 0 (by decide) (by decide)⟩

/-- The reshaped 1×1 Hessian of the `stDirect` model has determinant 1. -/
theorem stDirect_hdet :
    (reshapeH (buildH stDirect.epsilon stDirect.moeri)).det ≠ 0 := by
  rw [Matrix.det_fin_one]
  norm_num [reshapeH, buildH, eps_diag, stDirect, decO, decV, oix, vix,
    Fin.castAdd, Fin.natAdd, Matrix.one_apply]

/-- The `stDirect` ERI estimate fits the 2 GB budget. -/
theorem stDirect_hmem : ¬ I_Size (1 + 1) > stDirect.numpy_memory := by
  norm_num [I_Size, stDirect]

/-- Witness for C2: the model state passes the memory check, its Hessian
is invertible, and the direct solve returns without an exception. -/
theorem solve_static_direct_spec_witness :
    (¬ I_Size (1 + 1) > stDirect.numpy_memory) ∧
    (reshapeH (buildH stDirect.epsilon stDirect.moeri)).det ≠ 0 ∧
    (solve_static_direct stDirect).2 = none :=
  ⟨stDirect_hmem, stDirect_hdet,
    (solve_static_direct_spec stDirect stDirect_hmem stDirect_hdet).2.2.2.1⟩

/-- Witness for C8: on the model state (vanishing, hence fully symmetric,
two-electron integrals) the direct-mode polarizability is symmetric. -/
theorem polarizability_symmetric_witness :
    stDirect.method = "direct" ∧
    (¬ I_Size (1 + 1) > stDirect.numpy_memory) ∧
    (reshapeH (buildH stDirect.epsilon stDirect.moeri)).det ≠ 0 ∧
    (∀ (i j : Fin 1) (p q : Fin (1 + 1)),
      stDirect.moeri i p (oix j) q = stDirect.moeri j q (oix i) p) ∧
    (∀ (i j : Fin 1) (p q : Fin (1 + 1)),
      stDirect.moeri i (oix j) p q = stDirect.moeri j (oix i) q p) ∧
    (∃ P, (solve stDirect).1.polar = some P ∧ ∀ i f, P i f = P f i) :=
  ⟨rfl, stDirect_hmem, stDirect_hdet, fun _ _ _ _ => rfl, fun _ _ _ _ => rfl,
    polarizability_symmetric stDirect rfl stDirect_hmem stDirect_hdet
      (fun _ _ _ _ => rfl) (fun _ _ _ _ => rfl)⟩

/-- On `stJK` the first amplitude update lands exactly on the zero
matrices: the JK contribution reproduces the unit dipole. -/
theorem stJK_iterBody :
    iterBody stJK false 1 (initGuess stJK) (zeroV3 1 1) = zeroV3 1 1 := by
  funext xyz i a
  simp [iterBody, stJK, stDirect, ia_denom, initGuess, zeroV3, CoW, CvW,
    Matrix.mul_apply, Fin.sum_univ_succ, Fin.sum_univ_zero, Fin.val_succ,
    Fin.val_zero, oix, vix, Fin.natAdd, Fin.castAdd, Matrix.smul_apply,
    Matrix.sub_apply, Matrix.transpose_apply]

/-- C4 (counterexample): on `stJK` with tolerance 1/2 the loop stops after
its very first iteration (the change from the zero-initialized `x_old` is
zero), even though the squared elementwise change from the previous
iterate — the initial guess — is 1, not below tolerance.  The first
convergence check measures distance to zero, not to the initial guess. -/
theorem iterative_first_check_claim_false :
    (cphfLoop stJK false (1 / 2) 5 (1, initGuess stJK, zeroV3 1 1)).1 = 1 ∧
    ¬ maxRMS3 (iterBody stJK false 1 (initGuess stJK) (zeroV3 1 1))
        (initGuess stJK) < 1 / 2 := by
  constructor
  · have hr : rmsOf stJK false (1, initGuess stJK, zeroV3 1 1) < 1 / 2 := by
      rw [rmsOf]
      dsimp only
      rw [stJK_iterBody]
      norm_num [maxRMS3, maxSqDiff, zeroV3, List.finRange_succ,
        List.finRange_zero]
    simp only [cphfLoop, if_pos hr]
  · rw [stJK_iterBody]
    norm_num [maxRMS3, maxSqDiff, zeroV3, initGuess, stJK, stDirect,
      ia_denom, oix, vix, Fin.natAdd, Fin.castAdd, List.finRange_succ,
      List.finRange_zero]

/-- Witness for C4 (amended): on `stIter` with tolerance 2 the very first
convergence check already passes, and the loop indeed executes exactly one
iteration of the allowed 3. -/
theorem solve_static_iterative_termination_witness :
    rmsSeq stIter false (1, initGuess stIter, zeroV3 1 1) 0 < 2 ∧
    (cphfLoop stIter false 2 3 (1, initGuess stIter, zeroV3 1 1)).1 = 0 + 1 := by
  have h : rmsSeq stIter false (1, initGuess stIter, zeroV3 1 1) 0 < 2 := by
    rw [rmsSeq_zero, rmsOf]
    dsimp only
    norm_num [iterBody, stIter, stDirect, ia_denom, initGuess, zeroV3, CoW,
      CvW, maxRMS3, maxSqDiff, Matrix.mul_apply, Fin.sum_univ_succ,
      Fin.sum_univ_zero, oix, vix, Fin.natAdd, Fin.castAdd,
      List.finRange_succ, List.finRange_zero]
  exact ⟨h, (solve_static_iterative_termination stIter 3 2 false).2.1 0
    (by norm_num) h (fun j hj => absurd hj (Nat.not_lt_zero j))⟩

end Psi4CPHF

